import Mathlib

/-!
Verification of the pin command subsystem (src/core/commands/pin.go):
shallow embedding of `pinLsAll`, `pinLsKeys`, `cidsToStrings`, the control
flow of `addPinCmd.Run` / `rmPinCmd.Run`, and the progress relay loop,
together with theorems about the listing, closure, locking and streaming
behaviour.
-/

set_option autoImplicit false

namespace PinSpec

/-- Content identifier: an opaque token with a canonical string form
(cf. `cid.Cid`; the Go call `c.String()` is modelled by the `str` field). -/
structure Cid where
  str : String
  deriving DecidableEq, Repr

/-- Embedding of `cidsToStrings` (src/core/commands/pin.go): builds the output
slice by appending `c.String()` for each input cid in order. -/
def cidsToStrings (cs : List Cid) : List String :=
  cs.foldl (fun out c => out ++ [c.str]) []

/-- Go map assignment `keys[k] = v` on a string-keyed map: overwrite the entry
when the key is present, otherwise add a new entry. -/
def mapInsert (m : List (String × String)) (k v : String) : List (String × String) :=
  if m.any (fun p => p.1 = k) then
    m.map (fun p => if p.1 = k then (k, v) else p)
  else
    m ++ [(k, v)]

/-- Go map read `m[k]`. -/
def mapLookup (m : List (String × String)) (k : String) : Option String :=
  (m.find? (fun p => p.1 = k)).map (fun p => p.2)

/-- Modelled from the spec: the ClosureComputer, that is `dag.EnumerateChildren`
driven by a shared `cid.Set` (both live outside src/). Depth-first processing of
the pending work list: a child already in the visited set is a traversal
boundary; a child seen for the first time is added to the visited set, the
enumeration of its children is logged, and its links are fetched (`none` models
a fetch failure, which aborts the whole computation); `fuel` bounds the
recursion. Returns the visited set together with the log of identifiers whose
children were enumerated. -/
def closureGo (g : Cid → Option (List Cid)) :
    Nat → List Cid → List Cid → List Cid → Option (List Cid × List Cid)
  | _, [], visited, log => some (visited, log)
  | 0, _ :: _, _, _ => none
  | fuel + 1, c :: rest, visited, log =>
    if c ∈ visited then closureGo g fuel rest visited log
    else
      match g c with
      | none => none
      | some links => closureGo g fuel (links ++ rest) (visited ++ [c]) (log ++ [c])

/-- Modelled from the spec: one `dag.EnumerateChildren` call per recursive root
against the one shared visited set; a failing enumeration aborts the whole
computation. The links of each root are fetched once per root and the root is
logged as enumerated. -/
def closureFromRoots (g : Cid → Option (List Cid)) (fuel : Nat) :
    List Cid → List Cid → List Cid → Option (List Cid × List Cid)
  | [], visited, log => some (visited, log)
  | r :: rs, visited, log =>
    (g r).bind fun links =>
      (closureGo g fuel links visited (log ++ [r])).bind fun p =>
        closureFromRoots g fuel rs p.1 p.2

/-- Modelled from the spec: `computeIndirect` — traversal seeded by every
recursive root, with the visited set containing the roots themselves; the
returned first component is the indirect-only set (roots excluded), the second
the enumeration log. -/
def computeIndirect (g : Cid → Option (List Cid)) (fuel : Nat) (roots : List Cid) :
    Option (List Cid × List Cid) :=
  (closureFromRoots g fuel roots roots []).map
    (fun p => (p.1.filter (fun x => decide (x ∉ roots)), p.2))

/-- State of the pin store visible to the listing code: the direct and
recursive key sets (`n.Pinning.DirectKeys()` and `n.Pinning.RecursiveKeys()`). -/
structure PinState where
  directKeys : List Cid
  recursiveKeys : List Cid

/-- Embedding of the `AddToResultKeys` closure inside `pinLsAll`: write every
key of `keyList` into the map under the given type label. -/
def AddToResultKeys (keys : List (String × String)) (keyList : List Cid) (t : String) :
    List (String × String) :=
  keyList.foldl (fun m c => mapInsert m c.str t) keys

/-- Embedding of `pinLsAll` (src/core/commands/pin.go): for filter direct/all
add the direct keys, for indirect/all compute the indirect closure over all
recursive roots (aborting the whole call when an enumeration fails), for
recursive/all add the recursive keys; everything is written into one
string-keyed map. -/
def pinLsAll (typeStr : String) (g : Cid → Option (List Cid)) (fuel : Nat) (st : PinState) :
    Option (List (String × String)) :=
  let keys0 : List (String × String) := []
  let keys1 :=
    if typeStr = "direct" ∨ typeStr = "all" then AddToResultKeys keys0 st.directKeys "direct"
    else keys0
  if typeStr = "indirect" ∨ typeStr = "all" then
    match computeIndirect g fuel st.recursiveKeys with
    | none => none
    | some (ind, _) =>
      let keys2 := AddToResultKeys keys1 ind "indirect"
      some
        (if typeStr = "recursive" ∨ typeStr = "all" then
          AddToResultKeys keys2 st.recursiveKeys "recursive"
        else keys2)
  else
    some
      (if typeStr = "recursive" ∨ typeStr = "all" then
        AddToResultKeys keys1 st.recursiveKeys "recursive"
      else keys1)

/-- External collaborators used by `pinLsKeys`: path parsing, path resolution
and the `IsPinnedWithType` query of the pin store. -/
structure LsEnv where
  parsePath : String → Except String String
  resolveToCid : String → Except String Cid
  isPinnedWithType : Cid → String → Except String (String × Bool)

/-- Modelled from the spec: `pin.StringToPinMode` (outside src/) recognises
exactly the filter values direct, indirect, recursive and all; the mode is
represented here by its name. -/
def StringToPinMode (s : String) : Option String :=
  if s = "direct" ∨ s = "indirect" ∨ s = "recursive" ∨ s = "all" then some s else none

/-- Embedding of the loop of `pinLsKeys` (src/core/commands/pin.go): parse and
resolve each path, query `IsPinnedWithType`, fail fast on the first error or
on the first path that is not pinned under the requested mode, otherwise record
the type label (a type outside direct/indirect/recursive/internal becomes
"indirect through " followed by the type). -/
def pinLsKeysGo (env : LsEnv) (mode : String) :
    List String → List (String × String) → Except String (List (String × String))
  | [], keys => .ok keys
  | p :: rest, keys =>
    (env.parsePath p).bind fun pth =>
      (env.resolveToCid pth).bind fun c =>
        (env.isPinnedWithType c mode).bind fun r =>
          if r.2 then
            pinLsKeysGo env mode rest (mapInsert keys c.str
              (if r.1 = "direct" ∨ r.1 = "indirect" ∨ r.1 = "recursive" ∨ r.1 = "internal"
                then r.1
              else "indirect through " ++ r.1))
          else .error ("path '" ++ p ++ "' is not pinned")

/-- Embedding of `pinLsKeys` (src/core/commands/pin.go). -/
def pinLsKeys (env : LsEnv) (args : List String) (typeStr : String) :
    Except String (List (String × String)) :=
  match StringToPinMode typeStr with
  | none => .error ("invalid pin mode '" ++ typeStr ++ "'")
  | some mode => pinLsKeysGo env mode args []

/-- Output events sent on the progress stream of `addPinCmd.Run`
(`AddPinOutput` values): a progress snapshot or the terminal pins result. -/
inductive OutEvent where
  | progress (n : Nat)
  | pins (ps : List String)
  deriving DecidableEq, Repr

/-- Which branch of the relay select loop fires at each iteration: the internal
channel yields the pin result (with the progress tracker value read at that
moment), the internal channel is closed without a value (the background
operation failed), the 500 ms ticker fires (with the tracker value at that
moment), or the context is cancelled. -/
inductive StreamEvent where
  | recvOk (pv : Nat) (val : List Cid)
  | recvClosed
  | tick (pv : Nat)
  | ctxDone
  deriving DecidableEq, Repr

/-- How the relay goroutine of `addPinCmd.Run` exited; in every case the output
channel is closed by the deferred close. `starved` marks the improper trace
that ends before any terminating select branch fires. -/
inductive RelayExit where
  | resultSent
  | errorChan
  | cancelled
  | starved
  deriving DecidableEq, Repr

/-- Embedding of the relay select loop of `addPinCmd.Run` (progress mode): on a
received value, flush a final snapshot exactly when the tracker value is
nonzero and then send the pins result; on a closed channel return with the
error already set on the response; on a ticker tick send a snapshot of the
current tracker value (no zero test on this branch); on cancellation set the
context error on the response and return. -/
def relayRun : List StreamEvent → List OutEvent × RelayExit
  | [] => ([], .starved)
  | .recvOk pv val :: _ =>
    ((if pv ≠ 0 then [OutEvent.progress pv] else []) ++ [OutEvent.pins (cidsToStrings val)],
      .resultSent)
  | .recvClosed :: _ => ([], .errorChan)
  | .tick pv :: rest =>
    let r := relayRun rest
    (OutEvent.progress pv :: r.1, r.2)
  | .ctxDone :: _ => ([], .cancelled)

/-- Embedding of the background goroutine of `addPinCmd.Run`: on failure the
error is set on the response and the channel is closed without a send; on
success the added cids are sent and then the channel closes. First component:
the value sent on the internal channel before it closes; second component: the
error set on the response. -/
def backgroundPin (pinResult : Except String (List Cid)) :
    Option (List Cid) × Option String :=
  match pinResult with
  | .error e => (none, some e)
  | .ok added => (some added, none)

/-- Observable actions of a command Run body that matter for lock accounting
and error reporting. -/
inductive Action where
  | lockAcquire
  | lockRelease
  | setError (e : String)
  | setOutput
  | spawnBackground
  deriving DecidableEq, Repr

/-- Inputs of one `addPinCmd.Run` call: whether `GetNode` succeeds, whether the
recursive option parses, whether progress was requested, and the outcome of
`corerepo.Pin`. -/
structure AddEnv where
  getNodeOk : Bool
  recursiveOptOk : Bool
  showProgress : Bool
  pinResult : Except String (List Cid)

/-- Embedding of the control flow of `addPinCmd.Run`: the pin lock is acquired
right after `GetNode` succeeds and its release is deferred, so it runs when the
Run call returns on every path — including the progress path, where Run returns
immediately after spawning the background work. -/
def addPinRunTrace (env : AddEnv) : List Action :=
  if env.getNodeOk = false then [Action.setError "GetNode"]
  else
    [Action.lockAcquire] ++
      (if env.recursiveOptOk = false then [Action.setError "recursive option"]
        else if env.showProgress = false then
          match env.pinResult with
          | .error e => [Action.setError e]
          | .ok _ => [Action.setOutput]
        else [Action.spawnBackground]) ++
      [Action.lockRelease]

/-- Inputs of one `rmPinCmd.Run` call. -/
structure RmEnv where
  getNodeOk : Bool
  recursiveOptOk : Bool
  unpinResult : Except String (List Cid)

/-- Embedding of the control flow of `rmPinCmd.Run`: `GetNode`, option parsing,
`corerepo.Unpin`, output. No pin-lock acquisition or release appears anywhere
in this body. -/
def rmPinRunTrace (env : RmEnv) : List Action :=
  if env.getNodeOk = false then [Action.setError "GetNode"]
  else if env.recursiveOptOk = false then [Action.setError "recursive option"]
  else
    match env.unpinResult with
    | .error e => [Action.setError e]
    | .ok _ => [Action.setOutput]

/-- Test fixture: a link map where every identifier has no children. -/
def gEmpty : Cid → Option (List Cid) := fun _ => some []

/-- Test fixture: the diamond graph of the spec — x has children a and b, a has
child b, b has no children. -/
def gDiamond : Cid → Option (List Cid) := fun c =>
  if c.str = "x" then some [⟨"a"⟩, ⟨"b"⟩]
  else if c.str = "a" then some [⟨"b"⟩]
  else if c.str = "b" then some []
  else none

/-- Test fixture: a link map where every enumeration fails. -/
def gNone : Cid → Option (List Cid) := fun _ => none

/-- Test fixture: an environment in which every path parses and resolves to the
cid with the same string, the path good is recursively pinned and every other
path is not pinned. -/
def envNotPinned : LsEnv where
  parsePath := fun p => .ok p
  resolveToCid := fun p => .ok ⟨p⟩
  isPinnedWithType := fun c _ =>
    if c.str = "good" then .ok ("recursive", true) else .ok ("", false)

/-- Test fixture: an environment in which every path parses and resolves to the
cid with the same string and every identifier is pinned with the type weird,
which is outside the four known type names. -/
def envUnknownType : LsEnv where
  parsePath := fun p => .ok p
  resolveToCid := fun p => .ok ⟨p⟩
  isPinnedWithType := fun _ _ => .ok ("weird", true)

/-- Recognises a progress snapshot event. -/
def isProgress : OutEvent → Bool
  | .progress _ => true
  | .pins _ => false

/-- Recognises a terminal pins result event. -/
def isPins : OutEvent → Bool
  | .progress _ => false
  | .pins _ => true

/-- Recognises a lock acquisition action. -/
def isLockAcquire : Action → Bool
  | .lockAcquire => true
  | _ => false

/-- Recognises a lock release action. -/
def isLockRelease : Action → Bool
  | .lockRelease => true
  | _ => false

/-- One path that is processed without failure by the `pinLsKeys` loop: it
parses, resolves, and the resolved identifier is pinned under the mode. -/
def pathOk (env : LsEnv) (mode : String) (p : String) : Prop :=
  ∃ pth c ty, env.parsePath p = .ok pth ∧ env.resolveToCid pth = .ok c ∧
    env.isPinnedWithType c mode = .ok (ty, true)

theorem foldl_append_singleton_eq_map (cs : List Cid) :
    ∀ init : List String, cs.foldl (fun out c => out ++ [c.str]) init = init ++ cs.map Cid.str := by
  induction cs with
  | nil => intro init; simp
  | cons c cs ih => intro init; simp [List.foldl_cons, ih]

/-- C10: `cidsToStrings` maps each input cid to its canonical string form,
preserving order, multiplicity and length, so the Pins field of add and remove
results lists exactly the identifiers the underlying operation returned, in
order. -/
theorem cidsToStrings_spec (cs : List Cid) :
    cidsToStrings cs = cs.map Cid.str ∧ (cidsToStrings cs).length = cs.length := by
  have h := foldl_append_singleton_eq_map cs []
  simp [cidsToStrings] at h ⊢
  simp [h]

/-- C2 (amended): in the embedded control flow of `addPinCmd.Run` the pin lock
is acquired exactly once when node retrieval succeeds (never otherwise) and
every trace contains exactly as many releases as acquisitions — the deferred
release runs on every exit path, including failure paths and the progress path
where the foreground call returns while background work continues. The embedded
control flow of `rmPinCmd.Run` contains no lock acquisition and no release at
all. -/
theorem pin_lock_accounting (envA : AddEnv) (envR : RmEnv) :
    ((addPinRunTrace envA).countP isLockAcquire = (addPinRunTrace envA).countP isLockRelease) ∧
    ((addPinRunTrace envA).countP isLockAcquire = if envA.getNodeOk then 1 else 0) ∧
    ((rmPinRunTrace envR).countP isLockAcquire = 0) ∧
    ((rmPinRunTrace envR).countP isLockRelease = 0) := by
  obtain ⟨gn, ro, sp, pr⟩ := envA
  obtain ⟨gn2, ro2, ur⟩ := envR
  cases gn <;> cases ro <;> cases sp <;> cases pr <;> cases gn2 <;> cases ro2 <;> cases ur <;>
    simp [addPinRunTrace, rmPinRunTrace, isLockAcquire, isLockRelease, List.countP_cons,
      List.countP_append]

/-- C2: counterexample — a successful `rmPinCmd.Run` call acquires the no-GC
lock zero times, not once as the claim states for the pin-remove operation. -/
theorem rmPin_lock_cex :
    (rmPinRunTrace ⟨true, true, .ok []⟩).countP isLockAcquire = 0 ∧ (0 : Nat) ≠ 1 := by
  constructor
  · rfl
  · decide

/-- C3 (amended): a successful progress stream consists of one snapshot per
elapsed ticker tick, then a final flush snapshot exactly when the tracker value
is nonzero, then exactly one terminal pins result; in particular an operation
finishing before the first tick delivers no tick snapshots — only the optional
final flush and the single terminal result. -/
theorem relay_terminal_events (ticks : List Nat) (pv : Nat) (val : List Cid) :
    relayRun (ticks.map StreamEvent.tick ++ [StreamEvent.recvOk pv val]) =
      (ticks.map OutEvent.progress ++
        ((if pv ≠ 0 then [OutEvent.progress pv] else []) ++ [OutEvent.pins (cidsToStrings val)]),
        RelayExit.resultSent) := by
  induction ticks with
  | nil => simp [relayRun]
  | cons t ts ih => simp [relayRun, ih]

/-- C3: counterexample — an operation that completes before the first tick but
has made nonzero progress delivers one ProgressSnapshot (the final flush), not
zero as the claim states. -/
theorem relay_fast_op_cex :
    relayRun [StreamEvent.recvOk 1 [⟨"Q"⟩]] =
      ([OutEvent.progress 1, OutEvent.pins ["Q"]], RelayExit.resultSent) ∧
    ((relayRun [StreamEvent.recvOk 1 [⟨"Q"⟩]]).1.countP isProgress = 1) := by
  constructor
  · rfl
  · rfl

/-- C4 (amended): every progress snapshot delivered on the stream comes either
from a ticker tick carrying the tracker value read at that moment — with no
filtering, so the value may be zero — or is the final nonzero flush in front of
the terminal result. -/
theorem relay_snapshot_source (t : List StreamEvent) (n : Nat)
    (h : OutEvent.progress n ∈ (relayRun t).1) :
    StreamEvent.tick n ∈ t ∨ (n ≠ 0 ∧ ∃ val, StreamEvent.recvOk n val ∈ t) := by
  induction t with
  | nil => simp [relayRun] at h
  | cons e ts ih =>
    cases e with
    | recvOk pv val =>
      by_cases hpv : pv ≠ 0
      · simp [relayRun, hpv] at h
        exact Or.inr ⟨h ▸ hpv, val, by simp [h]⟩
      · simp [relayRun, hpv] at h
    | recvClosed => simp [relayRun] at h
    | tick pv =>
      simp [relayRun] at h
      rcases h with h | h
      · exact Or.inl (by simp [h])
      · rcases ih h with h2 | ⟨hn, v, hv⟩
        · exact Or.inl (List.mem_cons_of_mem _ h2)
        · exact Or.inr ⟨hn, v, List.mem_cons_of_mem _ hv⟩
    | ctxDone => simp [relayRun] at h

/-- C4: witness — the snapshot with value 2 in a concrete trace comes from the
tick with value 2. -/
theorem relay_snapshot_source_witness :
    StreamEvent.tick 2 ∈ [StreamEvent.tick 2, StreamEvent.recvOk 2 ([] : List Cid)] ∨
      ((2 : Nat) ≠ 0 ∧ ∃ val, StreamEvent.recvOk 2 val ∈
        [StreamEvent.tick 2, StreamEvent.recvOk 2 ([] : List Cid)]) :=
  relay_snapshot_source [StreamEvent.tick 2, StreamEvent.recvOk 2 []] 2 (by decide)

/-- C4: counterexample — a tick that fires while the tracker still reads zero
delivers a snapshot with progress count zero, which the claim rules out. -/
theorem relay_zero_snapshot_cex :
    (relayRun [StreamEvent.tick 0, StreamEvent.recvOk 0 []]).1 =
      [OutEvent.progress 0, OutEvent.pins []] ∧
    OutEvent.progress 0 ∈ (relayRun [StreamEvent.tick 0, StreamEvent.recvOk 0 []]).1 := by
  constructor
  · rfl
  · simp [relayRun]

/-- C8: when the background pin operation fails, the error is recorded on the
response and the internal channel closes without a send; the relay then ends
the stream after the already-queued tick snapshots without emitting any
terminal pins result. -/
theorem relay_background_failure (e : String) (ticks : List Nat) :
    backgroundPin (.error e) = (none, some e) ∧
    relayRun (ticks.map StreamEvent.tick ++ [StreamEvent.recvClosed]) =
      (ticks.map OutEvent.progress, RelayExit.errorChan) ∧
    (ticks.map OutEvent.progress).countP isPins = 0 := by
  refine ⟨rfl, ?_, ?_⟩
  · induction ticks with
    | nil => simp [relayRun]
    | cons t ts ih => simp [relayRun, ih]
  · induction ticks with
    | nil => rfl
    | cons t ts ih => simp [List.countP_cons, isPins, ih]

theorem mapLookup_cons (p : String × String) (m : List (String × String)) (k : String) :
    mapLookup (p :: m) k = if p.1 = k then some p.2 else mapLookup m k := by
  by_cases h : p.1 = k <;> simp [mapLookup, List.find?_cons, h]

theorem mapLookup_overwrite_ne (m : List (String × String)) (k v k' : String) (h : k' ≠ k) :
    mapLookup (m.map (fun p => if p.1 = k then (k, v) else p)) k' = mapLookup m k' := by
  induction m with
  | nil => rfl
  | cons p m ih =>
    by_cases hp : p.1 = k
    · have hk : k ≠ k' := fun he => h he.symm
      have hp' : p.1 ≠ k' := by rw [hp]; exact hk
      simp [hp, mapLookup_cons, hk, hp', ih]
    · by_cases hq : p.1 = k'
      · simp [hp, mapLookup_cons, hq, h]
      · simp [hp, mapLookup_cons, hq, ih]

theorem mapLookup_overwrite_self (m : List (String × String)) (k v : String)
    (hm : ∃ p ∈ m, p.1 = k) :
    mapLookup (m.map (fun p => if p.1 = k then (k, v) else p)) k = some v := by
  induction m with
  | nil => simp at hm
  | cons p m ih =>
    by_cases hp : p.1 = k
    · simp [hp, mapLookup_cons]
    · rcases hm with ⟨q, hq, hqk⟩
      rcases List.mem_cons.mp hq with rfl | hq2
      · exact absurd hqk hp
      · simp [hp, mapLookup_cons, ih ⟨q, hq2, hqk⟩]

theorem mapLookup_append_ne (m : List (String × String)) (k v k' : String) (h : k' ≠ k) :
    mapLookup (m ++ [(k, v)]) k' = mapLookup m k' := by
  induction m with
  | nil =>
    have hk : k ≠ k' := fun he => h he.symm
    simp [mapLookup, List.find?_cons, hk]
  | cons p m ih =>
    by_cases hp : p.1 = k'
    · simp [mapLookup_cons, hp]
    · simp [mapLookup_cons, hp, ih]

theorem mapLookup_append_absent (m : List (String × String)) (k v : String)
    (hm : ∀ p ∈ m, p.1 ≠ k) :
    mapLookup (m ++ [(k, v)]) k = some v := by
  induction m with
  | nil => simp [mapLookup, List.find?_cons]
  | cons p m ih =>
    have hp := hm p (by simp)
    simp only [List.cons_append, mapLookup_cons, if_neg hp]
    exact ih (fun q hq => hm q (by simp [hq]))

theorem mapLookup_mapInsert_self (m : List (String × String)) (k v : String) :
    mapLookup (mapInsert m k v) k = some v := by
  unfold mapInsert
  by_cases hm : (m.any fun p => decide (p.1 = k)) = true
  · rw [if_pos hm]
    exact mapLookup_overwrite_self m k v (by simpa using hm)
  · rw [if_neg hm]
    refine mapLookup_append_absent m k v ?_
    intro p hp
    simp only [List.any_eq_true, decide_eq_true_eq] at hm
    exact fun he => hm ⟨p, hp, he⟩

theorem mapLookup_mapInsert_ne (m : List (String × String)) (k v k' : String) (h : k' ≠ k) :
    mapLookup (mapInsert m k v) k' = mapLookup m k' := by
  unfold mapInsert
  by_cases hm : (m.any fun p => decide (p.1 = k)) = true
  · rw [if_pos hm]
    exact mapLookup_overwrite_ne m k v k' h
  · rw [if_neg hm]
    exact mapLookup_append_ne m k v k' h

theorem mapLookup_AddToResultKeys (t s : String) :
    ∀ (keyList : List Cid) (m : List (String × String)),
      (mapLookup m s = some t ∨ ∃ c ∈ keyList, c.str = s) →
      mapLookup (AddToResultKeys m keyList t) s = some t := by
  intro keyList
  induction keyList with
  | nil =>
    intro m h
    rcases h with h | ⟨c, hc, _⟩
    · simpa [AddToResultKeys] using h
    · simp at hc
  | cons c cs ih =>
    intro m h
    have hstep : AddToResultKeys m (c :: cs) t = AddToResultKeys (mapInsert m c.str t) cs t := rfl
    rw [hstep]
    apply ih
    by_cases hcs : c.str = s
    · left
      rw [← hcs]
      exact mapLookup_mapInsert_self m c.str t
    · rcases h with h | ⟨c', hc', hs⟩
      · left
        rw [mapLookup_mapInsert_ne m c.str t s (fun he => hcs he.symm)]
        exact h
      · rcases List.mem_cons.mp hc' with rfl | hmem
        · exact absurd hs hcs
        · exact Or.inr ⟨c', hmem, hs⟩

theorem pinLsAll_all_eq (g : Cid → Option (List Cid)) (fuel : Nat) (st : PinState) :
    pinLsAll "all" g fuel st =
      match computeIndirect g fuel st.recursiveKeys with
      | none => none
      | some (ind, _) =>
        some (AddToResultKeys
          (AddToResultKeys (AddToResultKeys [] st.directKeys "direct") ind "indirect")
          st.recursiveKeys "recursive") := by
  simp [pinLsAll]

/-- C1 (amended): in a listing with filter all, an identifier pinned both
Direct and Recursive appears in the result mapping exactly once, under the
recursive label — the mapping is keyed by the identifier string and the
recursive pass writes last, overwriting the direct label. -/
theorem pinLsAll_all_both_pinned_last_label_recursive (g : Cid → Option (List Cid))
    (fuel : Nat) (st : PinState) (x : Cid) (m : List (String × String))
    (hx : x ∈ st.recursiveKeys) (h : pinLsAll "all" g fuel st = some m) :
    mapLookup m x.str = some "recursive" := by
  rw [pinLsAll_all_eq] at h
  cases hq : computeIndirect g fuel st.recursiveKeys with
  | none => rw [hq] at h; exact absurd h (by simp)
  | some p =>
    rw [hq] at h
    obtain ⟨ind, log⟩ := p
    simp only [Option.some.injEq] at h
    rw [← h]
    exact mapLookup_AddToResultKeys "recursive" x.str st.recursiveKeys _
      (Or.inr ⟨x, hx, rfl⟩)

/-- C1: counterexample — with Q pinned both directly and recursively, the
filter-all listing returns a mapping holding exactly one entry for Q, labeled
recursive; no entry under the direct label exists in the result, so Q is not
reported under both labels. -/
theorem pinLsAll_both_labels_cex :
    pinLsAll "all" gEmpty 5 ⟨[⟨"Q"⟩], [⟨"Q"⟩]⟩ = some [("Q", "recursive")] ∧
      ("Q", "direct") ∉ [("Q", "recursive")] := by
  exact ⟨rfl, by decide⟩

/-- C1: witness — the amended theorem applied to the concrete both-pinned
state. -/
theorem pinLsAll_all_both_pinned_witness :
    mapLookup [("Q", "recursive")] "Q" = some "recursive" :=
  pinLsAll_all_both_pinned_last_label_recursive gEmpty 5 ⟨[⟨"Q"⟩], [⟨"Q"⟩]⟩ ⟨"Q"⟩
    [("Q", "recursive")] (by decide) (by decide)

theorem closureGo_delta (g : Cid → Option (List Cid)) :
    ∀ (fuel : Nat) (pending visited log visited2 log2 : List Cid),
      closureGo g fuel pending visited log = some (visited2, log2) →
      ∃ d : List Cid, visited2 = visited ++ d ∧ log2 = log ++ d ∧ d.Nodup ∧
        ∀ x ∈ d, x ∉ visited := by
  intro fuel
  induction fuel with
  | zero =>
    intro pending visited log visited2 log2 h
    cases pending with
    | nil =>
      simp only [closureGo, Option.some.injEq, Prod.mk.injEq] at h
      exact ⟨[], by simp [h.1], by simp [h.2], List.nodup_nil, by simp⟩
    | cons c rest => simp [closureGo] at h
  | succ fuel ih =>
    intro pending visited log visited2 log2 h
    cases pending with
    | nil =>
      simp only [closureGo, Option.some.injEq, Prod.mk.injEq] at h
      exact ⟨[], by simp [h.1], by simp [h.2], List.nodup_nil, by simp⟩
    | cons c rest =>
      rw [closureGo] at h
      by_cases hc : c ∈ visited
      · rw [if_pos hc] at h
        exact ih rest visited log visited2 log2 h
      · rw [if_neg hc] at h
        cases hg : g c with
        | none => rw [hg] at h; exact absurd h (by simp)
        | some links =>
          rw [hg] at h
          obtain ⟨d, hv, hl, hnd, hfresh⟩ :=
            ih (links ++ rest) (visited ++ [c]) (log ++ [c]) visited2 log2 h
          refine ⟨c :: d, ?_, ?_, ?_, ?_⟩
          · rw [hv]; simp
          · rw [hl]; simp
          · exact List.nodup_cons.mpr ⟨fun hcd => (hfresh c hcd) (by simp), hnd⟩
          · intro x hx
            rcases List.mem_cons.mp hx with rfl | hxd
            · exact hc
            · exact fun hxv => (hfresh x hxd) (by simp [hxv])

theorem closureFromRoots_nodup (g : Cid → Option (List Cid)) (fuel : Nat) :
    ∀ (roots visited log visited2 log2 : List Cid),
      closureFromRoots g fuel roots visited log = some (visited2, log2) →
      visited.Nodup → log.Nodup → (∀ x ∈ log, x ∈ visited) →
      roots.Nodup → (∀ r ∈ roots, r ∈ visited ∧ r ∉ log) →
      visited2.Nodup ∧ log2.Nodup := by
  intro roots
  induction roots with
  | nil =>
    intro visited log visited2 log2 h hv hl _ _ _
    simp only [closureFromRoots, Option.some.injEq, Prod.mk.injEq] at h
    exact ⟨h.1 ▸ hv, h.2 ▸ hl⟩
  | cons r rs ih =>
    intro visited log visited2 log2 h hv hl hsub hnr hroots
    rw [closureFromRoots] at h
    cases hg : g r with
    | none => rw [hg, Option.none_bind'] at h; exact absurd h (by simp)
    | some links =>
      rw [hg, Option.some_bind'] at h
      cases hgo : closureGo g fuel links visited (log ++ [r]) with
      | none => rw [hgo, Option.none_bind'] at h; exact absurd h (by simp)
      | some p =>
        rw [hgo, Option.some_bind'] at h
        obtain ⟨v2, l2⟩ := p
        obtain ⟨d, hdv, hdl, hdnd, hdfresh⟩ :=
          closureGo_delta g fuel links visited (log ++ [r]) v2 l2 hgo
        have hrv : r ∈ visited := (hroots r (by simp)).1
        have hrl : r ∉ log := (hroots r (by simp)).2
        have hdisj : ∀ x ∈ d, x ∉ visited := hdfresh
        have hv2 : v2.Nodup := by
          rw [hdv, List.nodup_append]
          exact ⟨hv, hdnd, fun x hx hxd => (hdisj x hxd) hx⟩
        have hl2 : l2.Nodup := by
          rw [hdl, List.nodup_append]
          refine ⟨?_, hdnd, ?_⟩
          · rw [List.nodup_append]
            exact ⟨hl, List.nodup_singleton r, fun x hx hxr => by
              simp at hxr; exact hrl (hxr ▸ hx)⟩
          · intro x hx hxd
            rcases List.mem_append.mp hx with hx1 | hx2
            · exact (hdisj x hxd) (hsub x hx1)
            · simp at hx2
              exact (hdisj x hxd) (hx2 ▸ hrv)
        have hsub2 : ∀ x ∈ l2, x ∈ v2 := by
          intro x hx
          rw [hdl, List.append_assoc] at hx
          rcases List.mem_append.mp hx with hx1 | hx2
          · rw [hdv]; exact List.mem_append.mpr (Or.inl (hsub x hx1))
          · rcases List.mem_append.mp hx2 with hx3 | hx4
            · simp at hx3
              rw [hdv]; exact List.mem_append.mpr (Or.inl (hx3 ▸ hrv))
            · rw [hdv]; exact List.mem_append.mpr (Or.inr hx4)
        have hroots2 : ∀ r2 ∈ rs, r2 ∈ v2 ∧ r2 ∉ l2 := by
          intro r2 hr2
          have hr2v : r2 ∈ visited := (hroots r2 (by simp [hr2])).1
          have hr2l : r2 ∉ log := (hroots r2 (by simp [hr2])).2
          have hr2r : r2 ≠ r := by
            intro he
            exact (List.nodup_cons.mp hnr).1 (he ▸ hr2)
          constructor
          · rw [hdv]; exact List.mem_append.mpr (Or.inl hr2v)
          · rw [hdl]
            intro hx
            rcases List.mem_append.mp hx with hx1 | hx2
            · rcases List.mem_append.mp hx1 with hx3 | hx4
              · exact hr2l hx3
              · simp at hx4; exact hr2r hx4
            · exact (hdisj r2 hx2) hr2v
        exact ih v2 l2 visited2 log2 h hv2 hl2 hsub2 (List.nodup_cons.mp hnr).2 hroots2

/-- C5: the indirect-closure computation uses one deduplication set shared
across all recursive roots — for distinct roots, any identifier appears in the
resulting indirect set at most once (the set is duplicate-free) and the log of
identifiers whose children were enumerated is duplicate-free, so children are
enumerated only on the first visit. -/
theorem computeIndirect_dedup (g : Cid → Option (List Cid)) (fuel : Nat)
    (roots ind log : List Cid)
    (hroots : roots.Nodup) (h : computeIndirect g fuel roots = some (ind, log)) :
    ind.Nodup ∧ log.Nodup := by
  unfold computeIndirect at h
  cases hq : closureFromRoots g fuel roots roots [] with
  | none => rw [hq] at h; exact absurd h (by simp)
  | some p =>
    rw [hq] at h
    obtain ⟨v2, l2⟩ := p
    have h2 := Option.some.inj h
    injection h2 with hi hl
    obtain ⟨hv2, hl2⟩ := closureFromRoots_nodup g fuel roots roots [] v2 l2 hq
      hroots List.nodup_nil (by simp) hroots (fun r hr => ⟨hr, by simp⟩)
    constructor
    · rw [← hi]
      exact hv2.filter _
    · rw [← hl]
      exact hl2

/-- C5: witness — the diamond graph of the spec: x recursively pinned with
children a and b, a with child b; the indirect set is exactly a and b, each
once, and each identifier has its children enumerated exactly once. -/
theorem computeIndirect_dedup_witness :
    computeIndirect gDiamond 10 [⟨"x"⟩] =
      some ([⟨"a"⟩, ⟨"b"⟩], [⟨"x"⟩, ⟨"a"⟩, ⟨"b"⟩]) ∧
    ([⟨"a"⟩, ⟨"b"⟩] : List Cid).Nodup ∧ ([⟨"x"⟩, ⟨"a"⟩, ⟨"b"⟩] : List Cid).Nodup :=
  ⟨by decide,
    computeIndirect_dedup gDiamond 10 [⟨"x"⟩] [⟨"a"⟩, ⟨"b"⟩] [⟨"x"⟩, ⟨"a"⟩, ⟨"b"⟩]
      (by decide) (by decide)⟩

theorem closureFromRoots_root_failure (g : Cid → Option (List Cid)) (fuel : Nat) :
    ∀ (roots : List Cid) (visited log : List Cid) (r : Cid),
      r ∈ roots → g r = none → closureFromRoots g fuel roots visited log = none := by
  intro roots
  induction roots with
  | nil => intro _ _ r hr; simp at hr
  | cons r0 rs ih =>
    intro visited log r hr hgr
    rw [closureFromRoots]
    rcases List.mem_cons.mp hr with rfl | hmem
    · rw [hgr, Option.none_bind']
    · cases hg : g r0 with
      | none => rw [Option.none_bind']
      | some links =>
        rw [Option.some_bind']
        cases hgo : closureGo g fuel links visited (log ++ [r0]) with
        | none => rw [Option.none_bind']
        | some p => rw [Option.some_bind']; exact ih p.1 p.2 r hmem hgr

/-- C6: if link enumeration fails for a recursive root, the whole filter-all or
filter-indirect listing aborts with the failure and no partial result mapping
is returned as success. -/
theorem pinLsAll_aborts_on_enum_failure (g : Cid → Option (List Cid)) (fuel : Nat)
    (st : PinState) (typeStr : String) (r : Cid)
    (hr : r ∈ st.recursiveKeys) (hg : g r = none)
    (ht : typeStr = "indirect" ∨ typeStr = "all") :
    pinLsAll typeStr g fuel st = none := by
  have hq : computeIndirect g fuel st.recursiveKeys = none := by
    unfold computeIndirect
    rw [closureFromRoots_root_failure g fuel st.recursiveKeys st.recursiveKeys [] r hr hg]
    rfl
  rcases ht with rfl | rfl
  · simp [pinLsAll, hq]
  · simp [pinLsAll, hq]

/-- C6: witness — one recursive root whose enumeration fails makes the whole
filter-all listing fail. -/
theorem pinLsAll_aborts_on_enum_failure_witness :
    pinLsAll "all" gNone 5 ⟨[], [⟨"r"⟩]⟩ = none :=
  pinLsAll_aborts_on_enum_failure gNone 5 ⟨[], [⟨"r"⟩]⟩ "all" ⟨"r"⟩ (by decide) rfl
    (Or.inr rfl)

theorem except_bind_ok {α β : Type} (a : α) (f : α → Except String β) :
    (Except.ok a : Except String α).bind f = f a := rfl

theorem except_bind_error {α β : Type} (e : String) (f : α → Except String β) :
    (Except.error e : Except String α).bind f = Except.error e := rfl

theorem pinLsKeysGo_fail_fast (env : LsEnv) (mode : String) (p pth : String) (c : Cid)
    (ty : String) (post : List String)
    (h1 : env.parsePath p = .ok pth) (h2 : env.resolveToCid pth = .ok c)
    (h3 : env.isPinnedWithType c mode = .ok (ty, false)) :
    ∀ (pre : List String) (keys : List (String × String)),
      (∀ q ∈ pre, pathOk env mode q) →
      pinLsKeysGo env mode (pre ++ p :: post) keys =
        .error ("path '" ++ p ++ "' is not pinned") := by
  intro pre
  induction pre with
  | nil =>
    intro keys _
    rw [List.nil_append, pinLsKeysGo, h1, except_bind_ok, h2, except_bind_ok, h3,
      except_bind_ok]
    rfl
  | cons q pre ih =>
    intro keys hok
    obtain ⟨pth2, c2, ty2, hq1, hq2, hq3⟩ := hok q (by simp)
    rw [List.cons_append, pinLsKeysGo, hq1, except_bind_ok, hq2, except_bind_ok, hq3,
      except_bind_ok]
    exact ih _ (fun q2 hq => hok q2 (by simp [hq]))

/-- C7: for an explicit-target listing, if some input path resolves to an
identifier that is not pinned under the requested filter mode — all paths in
front of it being processed without failure — then the whole query fails with
the error naming that path, and no partial result mapping is returned: the
results accumulated for the earlier paths are discarded. -/
theorem pinLsKeys_fail_fast (env : LsEnv) (typeStr mode : String)
    (pre post : List String) (p pth : String) (c : Cid) (ty : String)
    (hmode : StringToPinMode typeStr = some mode)
    (hpre : ∀ q ∈ pre, pathOk env mode q)
    (h1 : env.parsePath p = .ok pth) (h2 : env.resolveToCid pth = .ok c)
    (h3 : env.isPinnedWithType c mode = .ok (ty, false)) :
    pinLsKeys env (pre ++ p :: post) typeStr =
      .error ("path '" ++ p ++ "' is not pinned") := by
  rw [pinLsKeys, hmode]
  exact pinLsKeysGo_fail_fast env mode p pth c ty post h1 h2 h3 pre [] hpre

/-- C7: witness — a two-path query in which the first path is recursively
pinned and the second is not pinned fails naming the second path. -/
theorem pinLsKeys_fail_fast_witness :
    pinLsKeys envNotPinned ["good", "bad"] "all" =
      .error ("path '" ++ "bad" ++ "' is not pinned") :=
  pinLsKeys_fail_fast envNotPinned "all" "all" ["good"] [] "bad" "bad" ⟨"bad"⟩ ""
    rfl
    (by
      intro q hq
      have hq2 : q = "good" := by simpa using hq
      subst hq2
      exact ⟨"good", ⟨"good"⟩, "recursive", rfl, rfl, rfl⟩)
    rfl rfl rfl

/-- C9: in an explicit-target listing, a resolved pin type outside direct,
indirect, recursive and internal is reported as the label "indirect through "
followed by that pin type. -/
theorem pinLsKeys_unknown_type_label (env : LsEnv) (typeStr mode : String)
    (p pth : String) (c : Cid) (ty : String)
    (hmode : StringToPinMode typeStr = some mode)
    (h1 : env.parsePath p = .ok pth) (h2 : env.resolveToCid pth = .ok c)
    (h3 : env.isPinnedWithType c mode = .ok (ty, true))
    (hd : ty ≠ "direct") (hi : ty ≠ "indirect") (hr : ty ≠ "recursive")
    (hn : ty ≠ "internal") :
    pinLsKeys env [p] typeStr = .ok [(c.str, "indirect through " ++ ty)] := by
  rw [pinLsKeys, hmode]
  show pinLsKeysGo env mode [p] [] = _
  rw [pinLsKeysGo, h1, except_bind_ok, h2, except_bind_ok, h3, except_bind_ok]
  have hcond : ¬(ty = "direct" ∨ ty = "indirect" ∨ ty = "recursive" ∨ ty = "internal") := by
    simp [hd, hi, hr, hn]
  show pinLsKeysGo env mode []
      (mapInsert [] c.str
        (if ty = "direct" ∨ ty = "indirect" ∨ ty = "recursive" ∨ ty = "internal" then ty
        else "indirect through " ++ ty)) = _
  rw [if_neg hcond]
  rfl

/-- C9: witness — a path pinned with the unknown type weird is reported with
the label "indirect through weird". -/
theorem pinLsKeys_unknown_type_label_witness :
    pinLsKeys envUnknownType ["p"] "all" = .ok [("p", "indirect through " ++ "weird")] :=
  pinLsKeys_unknown_type_label envUnknownType "all" "all" "p" "p" ⟨"p"⟩ "weird"
    rfl rfl rfl rfl (by decide) (by decide) (by decide) (by decide)

end PinSpec
